import Mathlib

/-!
Verification of the RSI (Relative Strength Index) engine of the
BitCoin-Prediction-Dashboard: the function `computeRsi` of `script.js`.

Prices and indicator values are modelled as rationals (ℚ): the source
operates on JS numbers with ordinary field arithmetic and none of the
claims under study depends on rounding. The JS `null` markers in the
output array are modelled as `none : Option ℚ`.
-/

namespace RsiDash

/-- Successive differences of the close prices:
`for (let i = 1; i < closes.length; i++) deltas.push(closes[i] - closes[i-1])`. -/
def deltas (closes : List ℚ) : List ℚ :=
  (closes.zip closes.tail).map (fun p => p.2 - p.1)

/-- One step of the seed accumulation
`seed.forEach((d) => { if (d >= 0) up += d; else down += Math.abs(d); })`. -/
def seedStep (acc : ℚ × ℚ) (d : ℚ) : ℚ × ℚ :=
  if 0 ≤ d then (acc.1 + d, acc.2) else (acc.1, acc.2 + |d|)

/-- The seed sums `(up, down)` accumulated over the seed slice, both
starting from `0`. -/
def seedSums (seed : List ℚ) : ℚ × ℚ :=
  seed.foldl seedStep (0, 0)

/-- The seed averages: `seed = deltas.slice(0, length)` accumulated by
`seedStep`, then `up /= length; down /= length`. -/
def seedState (closes : List ℚ) (window : ℕ) : ℚ × ℚ :=
  let s := seedSums ((deltas closes).take window)
  (s.1 / (window : ℚ), s.2 / (window : ℚ))

/-- Relative strength: `rs = avgUp / (avgDown === 0 ? 1 : avgDown)`. -/
def rsOf (avgUp avgDown : ℚ) : ℚ :=
  avgUp / (if avgDown = 0 then 1 else avgDown)

/-- An emitted indicator value: `100 - 100 / (1 + rs)`. -/
def rsiVal (rs : ℚ) : ℚ :=
  100 - 100 / (1 + rs)

/-- One Wilder-smoothing update of `(avgUp, avgDown)` by a delta `d`:
the `if (d >= 0) ... else ...` body of the rolling loop. -/
def wilderStep (w : ℕ) (st : ℚ × ℚ) (d : ℚ) : ℚ × ℚ :=
  if 0 ≤ d then
    ((st.1 * ((w : ℚ) - 1) + d) / (w : ℚ), st.2 * ((w : ℚ) - 1) / (w : ℚ))
  else
    (st.1 * ((w : ℚ) - 1) / (w : ℚ), (st.2 * ((w : ℚ) - 1) + |d|) / (w : ℚ))

/-- The rolling loop `for (let i = length; i < deltas.length; i++)`:
updates the state by `wilderStep`, emits `100 - 100/(1 + rs)` from the
updated averages, and returns the emitted values with the final state. -/
def rollLoop (w : ℕ) (st : ℚ × ℚ) : List ℚ → List (Option ℚ) × (ℚ × ℚ)
  | [] => ([], st)
  | d :: rest =>
    let st2 := wilderStep w st d
    let out := rollLoop w st2 rest
    (some (rsiVal (rsOf st2.1 st2.2)) :: out.1, out.2)

/-- The RSI engine `computeRsi(closes, length = 14)` of `script.js`:
deltas, seed averages, an initial (immediately shadowed) `rs`, a pad of
`length + 1` nulls, the rolling loop over `deltas` from index `length`,
and the final `while (rsi.length < closes.length) rsi.unshift(null)`. -/
def computeRsi (closes : List ℚ) (window : ℕ := 14) : List (Option ℚ) :=
  let ds := deltas closes
  let st := seedState closes window
  let rs := rsOf st.1 st.2
  let rsi := List.replicate (window + 1) (none : Option ℚ) ++
    (rollLoop window st (ds.drop window)).1
  List.replicate (closes.length - rsi.length) none ++ rsi

/-- The source body of `computeRsi` contains no `throw` and no
validation of `length`: every control path returns the array. Its
embedding at the level of fallibility therefore returns `ok` always. -/
def computeRsiE (closes : List ℚ) (window : ℕ := 14) :
    Except String (List (Option ℚ)) :=
  Except.ok (computeRsi closes window)

/-- Whether an `Except` result is a success. -/
def exceptIsOk : Except String (List (Option ℚ)) → Bool
  | .ok _ => true
  | .error _ => false

/-- Modelled from the spec (§4.1 step 6), word for word: the
rolling-phase update equations for `(avgGain, avgLoss)`. -/
def specStep (w : ℕ) (st : ℚ × ℚ) (d : ℚ) : ℚ × ℚ :=
  if 0 ≤ d then
    ((st.1 * ((w : ℚ) - 1) + d) / (w : ℚ), st.2 * ((w : ℚ) - 1) / (w : ℚ))
  else
    (st.1 * ((w : ℚ) - 1) / (w : ℚ), (st.2 * ((w : ℚ) - 1) + |d|) / (w : ℚ))

/-! ### Basic structure lemmas -/

lemma specStep_eq_wilderStep : specStep = wilderStep := rfl

lemma deltas_length (closes : List ℚ) :
    (deltas closes).length = closes.length - 1 := by
  simp [deltas]

lemma rollLoop_length (w : ℕ) (ds : List ℚ) : ∀ st : ℚ × ℚ,
    ((rollLoop w st ds).1).length = ds.length := by
  induction ds with
  | nil => intro st; simp [rollLoop]
  | cons d rest ih => intro st; simp [rollLoop, ih]

lemma computeRsi_eq_parts (closes : List ℚ) (w : ℕ) :
    computeRsi closes w =
      List.replicate (closes.length - ((w + 1) + ((deltas closes).length - w)))
          (none : Option ℚ) ++
        (List.replicate (w + 1) (none : Option ℚ) ++
          (rollLoop w (seedState closes w) ((deltas closes).drop w)).1) := by
  simp [computeRsi, rollLoop_length]

lemma computeRsi_of_long (closes : List ℚ) (w : ℕ) (hlen : w + 1 ≤ closes.length) :
    computeRsi closes w =
      List.replicate (w + 1) (none : Option ℚ) ++
        (rollLoop w (seedState closes w) ((deltas closes).drop w)).1 := by
  have h0 : closes.length - ((w + 1) + ((deltas closes).length - w)) = 0 := by
    rw [deltas_length]; omega
  rw [computeRsi_eq_parts, h0]
  simp

lemma computeRsi_of_short (closes : List ℚ) (w : ℕ) (hw : 0 < w)
    (hlen : closes.length ≤ w) :
    computeRsi closes w = List.replicate (w + 1) (none : Option ℚ) := by
  have hds : (deltas closes).drop w = [] := by
    apply List.drop_eq_nil_of_le; rw [deltas_length]; omega
  have h0 : closes.length - ((w + 1) + ((deltas closes).length - w)) = 0 := by
    rw [deltas_length]; omega
  rw [computeRsi_eq_parts, hds, h0]
  simp [rollLoop]

lemma seedSums_fold_fst (l : List ℚ) : ∀ a : ℚ × ℚ,
    (l.foldl seedStep a).1 = a.1 + (l.filter (fun d => decide (0 ≤ d))).sum := by
  induction l with
  | nil => intro a; simp
  | cons d t ih =>
    intro a
    by_cases hd : 0 ≤ d
    · simp [List.foldl_cons, List.filter_cons, hd, seedStep, ih]
      ring
    · simp [List.foldl_cons, List.filter_cons, hd, seedStep, ih]

lemma seedSums_fold_snd (l : List ℚ) : ∀ a : ℚ × ℚ,
    (l.foldl seedStep a).2 =
      a.2 + ((l.filter (fun d => decide (d < 0))).map (fun d => |d|)).sum := by
  induction l with
  | nil => intro a; simp
  | cons d t ih =>
    intro a
    by_cases hd : 0 ≤ d
    · have hd2 : ¬d < 0 := not_lt.mpr hd
      simp [List.foldl_cons, List.filter_cons, hd, hd2, seedStep, ih]
    · have hd2 : d < 0 := not_le.mp hd
      simp [List.foldl_cons, List.filter_cons, hd, hd2, seedStep, ih]
      ring

lemma deltas_get (closes : List ℚ) : ∀ i (h : i + 1 < closes.length),
    (deltas closes).get ⟨i, by rw [deltas_length]; omega⟩ =
      closes.get ⟨i + 1, h⟩ - closes.get ⟨i, by omega⟩ := by
  intro i h
  simp [deltas, List.get_eq_getElem, List.getElem_map, List.getElem_zip,
    List.getElem_tail]

/-! ### Claim theorems: the zero-division rule and the seed phase -/

/-- C2: relative strength is `avgUp / avgDown` with the guarded divisor
`if avgDown = 0 then 1 else avgDown`; when `avgDown = 0` the result is
`avgUp` itself, and the divisor is never zero, so the division never
degenerates. -/
theorem rsOf_zero_division (up down : ℚ) (h : 0 ≤ down) :
    (if down = 0 then (1 : ℚ) else down) ≠ 0 ∧
    (down = 0 → rsOf up down = up) ∧
    (down ≠ 0 → rsOf up down = up / down) := by
  refine ⟨?_, ?_, ?_⟩
  · by_cases hd : down = 0
    · simp [hd]
    · simp [hd]
  · intro hd; simp [rsOf, hd]
  · intro hd; simp [rsOf, hd]

/-- C2 witness. -/
theorem rsOf_zero_division_wit : rsOf 3 0 = 3 :=
  ((rsOf_zero_division 3 0 (by norm_num)).2.1) rfl

/-- C3: the seed phase takes exactly the first `window` successive
differences `closes[i+1] - closes[i]`; deltas `d ≥ 0` are summed into
the gain bucket, deltas `d < 0` contribute `|d|` to the loss bucket, and
the seed averages divide the two sums by `window`. -/
theorem computeRsi_seed_phase (closes : List ℚ) (w : ℕ) (hw : 0 < w) :
    ((deltas closes).take w).length = min w (closes.length - 1) ∧
    (∀ i (h : i + 1 < closes.length),
      (deltas closes).get ⟨i, by rw [deltas_length]; omega⟩ =
        closes.get ⟨i + 1, h⟩ - closes.get ⟨i, by omega⟩) ∧
    (seedSums ((deltas closes).take w)).1 =
      (((deltas closes).take w).filter (fun d => decide (0 ≤ d))).sum ∧
    (seedSums ((deltas closes).take w)).2 =
      ((((deltas closes).take w).filter (fun d => decide (d < 0))).map
        (fun d => |d|)).sum ∧
    seedState closes w =
      ((seedSums ((deltas closes).take w)).1 / (w : ℚ),
       (seedSums ((deltas closes).take w)).2 / (w : ℚ)) := by
  refine ⟨?_, deltas_get closes, ?_, ?_, rfl⟩
  · simp [deltas_length]
  · rw [seedSums, seedSums_fold_fst]
    simp
  · rw [seedSums, seedSums_fold_snd]
    simp

/-- C3 witness. -/
theorem computeRsi_seed_phase_wit :
    (seedSums ((deltas [(1 : ℚ), 3, 2]).take 2)).1 =
      (((deltas [(1 : ℚ), 3, 2]).take 2).filter (fun d => decide (0 ≤ d))).sum :=
  (computeRsi_seed_phase [(1 : ℚ), 3, 2] 2 (by norm_num)).2.2.1

/-! ### Claim theorems: lengths and padding -/

/-- C1, amended: the output length of `computeRsi` is the maximum of the
input length and `window + 1`; it equals the input length exactly when
`len(closes) ≥ window + 1`, and is `window + 1` (strictly longer than
the input) otherwise. -/
theorem computeRsi_length (closes : List ℚ) (w : ℕ) (hw : 0 < w) :
    (computeRsi closes w).length = max closes.length (w + 1) := by
  rw [computeRsi_eq_parts]
  simp [rollLoop_length, deltas_length]
  omega

/-- C1 counterexample: on the empty input with window 1 the output has
length 2, not length 0, so the output length does not always equal the
input length. -/
theorem computeRsi_length_cex :
    (computeRsi ([] : List ℚ) 1).length = 2 ∧ ([] : List ℚ).length = 0 := by
  constructor <;> rfl

/-- C1 witness. -/
theorem computeRsi_length_wit :
    (computeRsi [(1 : ℚ), 2] 14).length = max 2 15 :=
  computeRsi_length [(1 : ℚ), 2] 14 (by norm_num)

/-- C10: when `len(closes) ≤ window`, the output is exactly
`window + 1` null markers, strictly longer than the input. -/
theorem computeRsi_short_pad (closes : List ℚ) (w : ℕ) (hw : 0 < w)
    (hlen : closes.length ≤ w) :
    computeRsi closes w = List.replicate (w + 1) (none : Option ℚ) ∧
      closes.length < (computeRsi closes w).length := by
  have h := computeRsi_of_short closes w hw hlen
  refine ⟨h, ?_⟩
  rw [h]
  simp
  omega

/-- C10 witness. -/
theorem computeRsi_short_pad_wit :
    computeRsi [(7 : ℚ)] 2 = List.replicate 3 (none : Option ℚ) ∧
      ([(7 : ℚ)]).length < (computeRsi [(7 : ℚ)] 2).length :=
  computeRsi_short_pad [(7 : ℚ)] 2 (by norm_num) (by decide)

/-- C5: when `len(closes) ≥ window + 1` the first `window + 1` output
entries are all null; when `len(closes) < window + 1` every output entry
is null. -/
theorem computeRsi_leading_undefined (closes : List ℚ) (w : ℕ) (hw : 0 < w) :
    (w + 1 ≤ closes.length →
      (computeRsi closes w).take (w + 1) =
        List.replicate (w + 1) (none : Option ℚ)) ∧
    (closes.length < w + 1 → ∀ x ∈ computeRsi closes w, x = none) := by
  constructor
  · intro hlen
    rw [computeRsi_of_long closes w hlen,
      List.take_append_of_le_length (by simp), List.take_replicate]
    simp
  · intro hlen x hx
    rw [computeRsi_of_short closes w hw (by omega)] at hx
    exact List.eq_of_mem_replicate hx

/-- C5 witness. -/
theorem computeRsi_leading_undefined_wit :
    (computeRsi [(0 : ℚ), 1, 2, 3] 1).take 2 =
      List.replicate 2 (none : Option ℚ) :=
  (computeRsi_leading_undefined [(0 : ℚ), 1, 2, 3] 1 (by norm_num)).1 (by decide)

/-- C9, amended: the function never fails partway on any input, but it
also performs no validation of the window: for an invalid window (such
as 0) no error is raised either — every control path still returns a
sequence. -/
theorem computeRsiE_no_error (closes : List ℚ) (w : ℕ) :
    exceptIsOk (computeRsiE closes w) = true := rfl

/-- C9 counterexample: with the invalid window 0 the call still
succeeds; no error is raised before (or during) the computation. -/
theorem computeRsiE_invalid_window_cex :
    exceptIsOk (computeRsiE [(1 : ℚ), 2] 0) = true := rfl

/-! ### Claim theorems: the rolling phase -/

lemma rollLoop_eq_scanl (w : ℕ) (ds : List ℚ) : ∀ st : ℚ × ℚ,
    rollLoop w st ds =
      (((List.scanl (wilderStep w) st ds).tail).map
        (fun s => some (rsiVal (rsOf s.1 s.2))),
       List.foldl (wilderStep w) st ds) := by
  induction ds with
  | nil => intro st; simp [rollLoop]
  | cons d t ih =>
    intro st
    simp only [rollLoop, ih, List.foldl_cons, List.scanl_cons,
      List.nil_append, List.tail_cons]
    cases t with
    | nil => simp [List.scanl_nil]
    | cons e t2 => simp [List.scanl_cons]

/-- C4: the rolling phase is Wilder smoothing — starting from the seed
averages, each remaining delta updates `(avgGain, avgLoss)` by the
spec's update equations (`specStep`, transcribed from the spec text),
and the value emitted for that delta is `100 - 100/(1 + rs)` where `rs`
is recomputed from the just-updated averages. -/
theorem computeRsi_rolling_phase (closes : List ℚ) (w : ℕ) (hw : 0 < w)
    (hlen : w + 1 ≤ closes.length) :
    computeRsi closes w =
      List.replicate (w + 1) (none : Option ℚ) ++
        ((List.scanl (specStep w) (seedState closes w)
            ((deltas closes).drop w)).tail).map
          (fun s => some (rsiVal (rsOf s.1 s.2))) := by
  rw [computeRsi_of_long closes w hlen, specStep_eq_wilderStep,
    rollLoop_eq_scanl]

/-- C4 witness. -/
theorem computeRsi_rolling_phase_wit :
    computeRsi [(0 : ℚ), 1, 2, 3] 1 =
      List.replicate 2 (none : Option ℚ) ++
        ((List.scanl (specStep 1) (seedState [(0 : ℚ), 1, 2, 3] 1)
            ((deltas [(0 : ℚ), 1, 2, 3]).drop 1)).tail).map
          (fun s => some (rsiVal (rsOf s.1 s.2))) :=
  computeRsi_rolling_phase [(0 : ℚ), 1, 2, 3] 1 (by norm_num) (by norm_num)

/-! ### Claim theorems: the bounded range -/

lemma seedState_nonneg (closes : List ℚ) (w : ℕ) :
    0 ≤ (seedState closes w).1 ∧ 0 ≤ (seedState closes w).2 := by
  have h1 : (seedState closes w).1 =
      (seedSums ((deltas closes).take w)).1 / (w : ℚ) := rfl
  have h2 : (seedState closes w).2 =
      (seedSums ((deltas closes).take w)).2 / (w : ℚ) := rfl
  constructor
  · rw [h1]
    apply div_nonneg _ (by positivity)
    rw [seedSums, seedSums_fold_fst]
    simp only [zero_add]
    apply List.sum_nonneg
    intro x hx
    exact of_decide_eq_true (List.mem_filter.mp hx).2
  · rw [h2]
    apply div_nonneg _ (by positivity)
    rw [seedSums, seedSums_fold_snd]
    simp only [zero_add]
    apply List.sum_nonneg
    intro x hx
    obtain ⟨d, _, rfl⟩ := List.mem_map.mp hx
    exact abs_nonneg d

lemma wilderStep_nonneg (w : ℕ) (hw : 0 < w) (st : ℚ × ℚ) (d : ℚ)
    (h1 : 0 ≤ st.1) (h2 : 0 ≤ st.2) :
    0 ≤ (wilderStep w st d).1 ∧ 0 ≤ (wilderStep w st d).2 := by
  have hw1 : (0 : ℚ) ≤ (w : ℚ) - 1 := by
    have hcast : (1 : ℚ) ≤ (w : ℚ) := by exact_mod_cast hw
    linarith
  have hw0 : (0 : ℚ) ≤ (w : ℚ) := by positivity
  unfold wilderStep
  by_cases hd : 0 ≤ d
  · rw [if_pos hd]
    constructor
    · apply div_nonneg _ hw0
      have := mul_nonneg h1 hw1
      linarith
    · exact div_nonneg (mul_nonneg h2 hw1) hw0
  · rw [if_neg hd]
    constructor
    · exact div_nonneg (mul_nonneg h1 hw1) hw0
    · apply div_nonneg _ hw0
      have ha := mul_nonneg h2 hw1
      have hb := abs_nonneg d
      linarith

lemma rsOf_nonneg (up down : ℚ) (h1 : 0 ≤ up) (h2 : 0 ≤ down) :
    0 ≤ rsOf up down := by
  unfold rsOf
  by_cases hd : down = 0
  · rw [if_pos hd]
    simpa using h1
  · rw [if_neg hd]
    exact div_nonneg h1 h2

lemma rsiVal_bounds (rs : ℚ) (h : 0 ≤ rs) :
    0 ≤ rsiVal rs ∧ rsiVal rs ≤ 100 := by
  unfold rsiVal
  have h1 : (0 : ℚ) < 1 + rs := by linarith
  have h2 : 100 / (1 + rs) ≤ 100 := div_le_self (by norm_num) (by linarith)
  have h3 : 0 < 100 / (1 + rs) := div_pos (by norm_num) h1
  constructor <;> linarith

lemma rollLoop_bounded (w : ℕ) (hw : 0 < w) (ds : List ℚ) : ∀ st : ℚ × ℚ,
    0 ≤ st.1 → 0 ≤ st.2 → ∀ x ∈ (rollLoop w st ds).1, ∀ q : ℚ,
      x = some q → 0 ≤ q ∧ q ≤ 100 := by
  induction ds with
  | nil =>
    intro st _ _ x hx
    simp [rollLoop] at hx
  | cons d t ih =>
    intro st h1 h2 x hx q hq
    obtain ⟨hs1, hs2⟩ := wilderStep_nonneg w hw st d h1 h2
    simp only [rollLoop] at hx
    rcases List.mem_cons.mp hx with h | h
    · have hv : q = rsiVal (rsOf (wilderStep w st d).1 (wilderStep w st d).2) := by
        rw [h] at hq
        exact (Option.some.inj hq).symm
      rw [hv]
      exact rsiVal_bounds _ (rsOf_nonneg _ _ hs1 hs2)
    · exact ih (wilderStep w st d) hs1 hs2 x h q hq

/-- C8: every defined output value of `computeRsi` lies in the closed
interval `[0, 100]`. -/
theorem computeRsi_range (closes : List ℚ) (w : ℕ) (hw : 0 < w) :
    ∀ x ∈ computeRsi closes w, ∀ q : ℚ, x = some q → 0 ≤ q ∧ q ≤ 100 := by
  intro x hx q hq
  rw [computeRsi_eq_parts] at hx
  rcases List.mem_append.mp hx with h | h
  · rw [List.eq_of_mem_replicate h] at hq
    exact absurd hq (by simp)
  · rcases List.mem_append.mp h with h2 | h2
    · rw [List.eq_of_mem_replicate h2] at hq
      exact absurd hq (by simp)
    · obtain ⟨hs1, hs2⟩ := seedState_nonneg closes w
      exact rollLoop_bounded w hw _ _ hs1 hs2 x h2 q hq

/-- C8 witness. -/
theorem computeRsi_range_wit : 0 ≤ (50 : ℚ) ∧ (50 : ℚ) ≤ 100 :=
  computeRsi_range [(0 : ℚ), 1, 2, 3] 1 (by norm_num) (some 50)
    (by
      have h : computeRsi [(0 : ℚ), 1, 2, 3] 1 =
          [none, none, some 50, some 50] := by
        norm_num [computeRsi, deltas, seedState, seedSums, seedStep,
          rollLoop, wilderStep, rsOf, rsiVal]
        rfl
      rw [h]
      simp)
    50 rfl

/-! ### Claim theorems: flat input -/

lemma seedSums_zeros (l : List ℚ) : (∀ d ∈ l, d = 0) → ∀ a : ℚ × ℚ,
    l.foldl seedStep a = a := by
  induction l with
  | nil => intro _ a; simp
  | cons d t ih =>
    intro hl a
    have hd : d = 0 := hl d (List.mem_cons_self d t)
    rw [List.foldl_cons]
    have hstep : seedStep a d = a := by
      rw [hd]
      unfold seedStep
      rw [if_pos le_rfl]
      simp
    rw [hstep]
    exact ih (fun x hx => hl x (List.mem_cons_of_mem d hx)) a

lemma seedState_flat (closes : List ℚ) (w : ℕ)
    (hflat : ∀ d ∈ deltas closes, d = 0) : seedState closes w = (0, 0) := by
  have h0 : seedState closes w =
      ((seedSums ((deltas closes).take w)).1 / (w : ℚ),
       (seedSums ((deltas closes).take w)).2 / (w : ℚ)) := rfl
  have h : seedSums ((deltas closes).take w) = (0, 0) :=
    seedSums_zeros _ (fun d hd => hflat d (List.mem_of_mem_take hd)) (0, 0)
  rw [h0, h]
  simp

lemma wilderStep_zero (w : ℕ) : wilderStep w (0, 0) 0 = (0, 0) := by
  unfold wilderStep
  rw [if_pos le_rfl]
  simp

lemma rollLoop_flat (w : ℕ) : ∀ ds : List ℚ, (∀ d ∈ ds, d = 0) →
    rollLoop w (0, 0) ds = (List.replicate ds.length (some (0 : ℚ)), (0, 0)) := by
  intro ds
  induction ds with
  | nil => intro _; simp [rollLoop]
  | cons d t ih =>
    intro hds
    have hd : d = 0 := hds d (List.mem_cons_self d t)
    simp only [rollLoop, hd, wilderStep_zero,
      ih (fun x hx => hds x (List.mem_cons_of_mem d hx))]
    simp [rsOf, rsiVal, List.replicate_succ]

lemma scanl_flat (w : ℕ) : ∀ ds : List ℚ, (∀ d ∈ ds, d = 0) →
    ∀ st ∈ List.scanl (wilderStep w) ((0 : ℚ), (0 : ℚ)) ds, st = (0, 0) := by
  intro ds
  induction ds with
  | nil =>
    intro _ st hst
    simpa [List.scanl_nil] using hst
  | cons d t ih =>
    intro hds st hst
    have hd : d = 0 := hds d (List.mem_cons_self d t)
    rw [List.scanl_cons, hd, wilderStep_zero] at hst
    rcases List.mem_append.mp hst with h | h
    · simpa using h
    · exact ih (fun x hx => hds x (List.mem_cons_of_mem d hx)) st h

/-- C6, amended: for a flat price sequence (all deltas zero) longer than
`window + 1`, the seed averages are `(0, 0)`, the rolling state stays
`(0, 0)` throughout, the substitution rule gives `rs = 0`, and every
defined output value equals exactly 0 (`100 - 100/(1+0)`), not 50. -/
theorem computeRsi_flat (closes : List ℚ) (w : ℕ) (hw : 0 < w)
    (hlen : w + 1 < closes.length) (hflat : ∀ d ∈ deltas closes, d = 0) :
    seedState closes w = (0, 0) ∧
    (∀ st ∈ List.scanl (wilderStep w) ((0 : ℚ), (0 : ℚ))
        ((deltas closes).drop w), st = (0, 0)) ∧
    rsOf 0 0 = 0 ∧
    (∀ x ∈ computeRsi closes w, x = none ∨ x = some 0) := by
  have hseed := seedState_flat closes w hflat
  have hdrop : ∀ d ∈ (deltas closes).drop w, d = 0 :=
    fun d hd => hflat d (List.mem_of_mem_drop hd)
  refine ⟨hseed, scanl_flat w _ hdrop, by simp [rsOf], ?_⟩
  intro x hx
  rw [computeRsi_eq_parts, hseed, rollLoop_flat w _ hdrop] at hx
  rcases List.mem_append.mp hx with h | h
  · exact Or.inl (List.eq_of_mem_replicate h)
  · rcases List.mem_append.mp h with h2 | h2
    · exact Or.inl (List.eq_of_mem_replicate h2)
    · exact Or.inr (List.eq_of_mem_replicate h2)

/-- C6 counterexample: the flat sequence `[5, 5, 5]` with window 1 has a
defined output value, and it is 0, not 50. -/
theorem computeRsi_flat_cex :
    computeRsi [(5 : ℚ), 5, 5] 1 = [none, none, some 0] ∧ (0 : ℚ) ≠ 50 := by
  constructor
  · norm_num [computeRsi, deltas, seedState, seedSums, seedStep, rollLoop,
      wilderStep, rsOf, rsiVal]
    rfl
  · norm_num

/-- C6 witness. -/
theorem computeRsi_flat_wit : seedState [(5 : ℚ), 5, 5] 1 = (0, 0) :=
  (computeRsi_flat [(5 : ℚ), 5, 5] 1 (by norm_num) (by norm_num)
    (by
      intro d hd
      have h : deltas [(5 : ℚ), 5, 5] = [0, 0] := by norm_num [deltas]
      rw [h] at hd
      simp at hd
      exact hd)).1

/-! ### Claim theorems: constant positive step -/

lemma seedSums_replicate (step : ℚ) (hstep : 0 ≤ step) :
    ∀ (n : ℕ) (a : ℚ × ℚ),
      (List.replicate n step).foldl seedStep a = (a.1 + n * step, a.2) := by
  intro n
  induction n with
  | zero => intro a; simp
  | succ m ih =>
    intro a
    rw [List.replicate_succ, List.foldl_cons]
    have h : seedStep a step = (a.1 + step, a.2) := by
      unfold seedStep
      rw [if_pos hstep]
    rw [h, ih]
    simp only [Prod.mk.injEq]
    refine ⟨by push_cast; ring, trivial⟩

lemma seedState_const (closes : List ℚ) (w k : ℕ) (step : ℚ) (hw : 0 < w)
    (hstep : 0 ≤ step) (hd : deltas closes = List.replicate k step)
    (hk : w ≤ k) : seedState closes w = (step, 0) := by
  have hw0 : ((w : ℚ)) ≠ 0 := Nat.cast_ne_zero.mpr hw.ne'
  have htake : (deltas closes).take w = List.replicate w step := by
    rw [hd, List.take_replicate, min_eq_left hk]
  have h0 : seedState closes w =
      ((seedSums ((deltas closes).take w)).1 / (w : ℚ),
       (seedSums ((deltas closes).take w)).2 / (w : ℚ)) := rfl
  have hs : seedSums ((deltas closes).take w) = ((w : ℚ) * step, 0) := by
    rw [htake, seedSums, seedSums_replicate step hstep w (0, 0)]
    simp
  rw [h0, hs]
  simp only [Prod.mk.injEq]
  exact ⟨mul_div_cancel_left₀ step hw0, by simp⟩

lemma wilderStep_const (w : ℕ) (hw : 0 < w) (step : ℚ) (hstep : 0 ≤ step) :
    wilderStep w (step, 0) step = (step, 0) := by
  have hw0 : ((w : ℚ)) ≠ 0 := Nat.cast_ne_zero.mpr hw.ne'
  unfold wilderStep
  rw [if_pos hstep]
  simp only [Prod.mk.injEq]
  constructor
  · field_simp
    ring
  · simp

lemma rollLoop_const (w : ℕ) (hw : 0 < w) (step : ℚ) (hstep : 0 ≤ step) :
    ∀ m : ℕ, rollLoop w (step, 0) (List.replicate m step) =
      (List.replicate m (some (rsiVal step)), (step, 0)) := by
  intro m
  induction m with
  | zero => simp [rollLoop]
  | succ n ih =>
    rw [List.replicate_succ]
    simp only [rollLoop, wilderStep_const w hw step hstep, ih]
    have h : rsOf step 0 = step := by simp [rsOf]
    simp [h, List.replicate_succ]

lemma scanl_const (w : ℕ) (hw : 0 < w) (step : ℚ) (hstep : 0 ≤ step) :
    ∀ m : ℕ, ∀ st ∈ List.scanl (wilderStep w) (step, 0)
      (List.replicate m step), st.2 = 0 := by
  intro m
  induction m with
  | zero =>
    intro st hst
    simp [List.scanl_nil] at hst
    simp [hst]
  | succ n ih =>
    intro st hst
    rw [List.replicate_succ, List.scanl_cons,
      wilderStep_const w hw step hstep] at hst
    rcases List.mem_append.mp hst with h | h
    · simp at h
      simp [h]
    · exact ih st h

/-- C7, amended: for a price sequence whose deltas are a constant
positive `step` and whose length exceeds `window + 1`, the seed
averages are `(step, 0)`, the loss average stays 0 throughout the
rolling phase, and every defined output value equals
`100 - 100/(1 + step)` — a value strictly between 0 and 100, not 100. -/
theorem computeRsi_const_step (closes : List ℚ) (w k : ℕ) (step : ℚ)
    (hw : 0 < w) (hstep : 0 < step)
    (hd : deltas closes = List.replicate k step) (hk : w < k) :
    seedState closes w = (step, 0) ∧
    (∀ st ∈ List.scanl (wilderStep w) (step, 0)
        ((deltas closes).drop w), st.2 = 0) ∧
    (∀ x ∈ computeRsi closes w, x = none ∨ x = some (rsiVal step)) ∧
    0 < rsiVal step ∧ rsiVal step < 100 := by
  have hs0 : 0 ≤ step := le_of_lt hstep
  have hseed := seedState_const closes w k step hw hs0 hd (le_of_lt hk)
  have hdrop : (deltas closes).drop w = List.replicate (k - w) step := by
    rw [hd, List.drop_replicate]
  have h1 : (0 : ℚ) < 1 + step := by linarith
  refine ⟨hseed, ?_, ?_, ?_, ?_⟩
  · rw [hdrop]
    exact scanl_const w hw step hs0 (k - w)
  · intro x hx
    rw [computeRsi_eq_parts, hseed, hdrop,
      rollLoop_const w hw step hs0 (k - w)] at hx
    rcases List.mem_append.mp hx with h | h
    · exact Or.inl (List.eq_of_mem_replicate h)
    · rcases List.mem_append.mp h with h2 | h2
      · exact Or.inl (List.eq_of_mem_replicate h2)
      · exact Or.inr (List.eq_of_mem_replicate h2)
  · unfold rsiVal
    have h2 : 100 / (1 + step) < 100 := div_lt_self (by norm_num) (by linarith)
    linarith
  · unfold rsiVal
    have h3 : 0 < 100 / (1 + step) := div_pos (by norm_num) h1
    linarith

/-- C7 counterexample: the strictly increasing sequence `[0, 1, 2, 3]`
with constant step 1 and window 1 has defined output values, and they
equal 50, not 100. -/
theorem computeRsi_const_step_cex :
    computeRsi [(0 : ℚ), 1, 2, 3] 1 = [none, none, some 50, some 50] ∧
      (50 : ℚ) ≠ 100 := by
  constructor
  · norm_num [computeRsi, deltas, seedState, seedSums, seedStep, rollLoop,
      wilderStep, rsOf, rsiVal]
    rfl
  · norm_num

/-- C7 witness. -/
theorem computeRsi_const_step_wit :
    seedState [(0 : ℚ), 1, 2, 3] 1 = (1, 0) :=
  (computeRsi_const_step [(0 : ℚ), 1, 2, 3] 1 3 1 (by norm_num) (by norm_num)
    (by
      have h : List.replicate 3 (1 : ℚ) = [1, 1, 1] := rfl
      rw [h]
      norm_num [deltas])
    (by norm_num)).1

end RsiDash
